import Mathlib

/-
  Verification of the LevelDB core against its specification.

  Shallow embedding of the parts of the engine the checked properties
  concern: the memtable write/read path, the compaction drop rules, the
  write path's background-error handling, compaction scoring, the seek
  budget of new files, the memtable entry encoding, the table-cache file
  open fallback, the arena allocator, obsolete-file collection and the
  memtable flush.

  Byte strings are `List Nat` (each element one byte), machine integers
  are `Nat`/`Int` with explicit reduction where width matters, statuses
  are `Option` of an error kind (`none` = OK), and doubles (compaction
  scores) are modelled as exact rationals.
-/

namespace LevelDB

/-- Byte strings: keys, values and encoded buffers. -/
abbrev Bytes := List Nat

/-- Embeds `BytewiseComparatorImpl::Compare` (util/comparator.cc), i.e.
`Slice::compare`: memcmp over the common prefix, then shorter-is-smaller;
this is exactly lexicographic order on the byte lists. -/
def bytesCompare : Bytes → Bytes → Ordering
  | [], [] => .eq
  | [], _ :: _ => .lt
  | _ :: _, [] => .gt
  | a :: as, b :: bs =>
    if a < b then .lt else if b < a then .gt else bytesCompare as bs

/-- A memtable entry as stored in the skip list: the decoded form of the
buffer built by `MemTable::Add` (db/memtable.cc): user key, 56-bit
sequence number, value-type tag (0 = deletion, 1 = value) and value. -/
structure MemEntry where
  ukey : Bytes
  seq : Nat
  vtype : Nat
  value : Bytes
  deriving DecidableEq, Repr

/-- The 64-bit internal-key trailer `(seq << 8) | type` viewed as a number. -/
def tagOf (e : MemEntry) : Nat := e.seq * 256 + e.vtype

/-- Modelled from the spec: the InternalKey comparator (dbformat is not
under src/): user key ascending by the bytewise comparator, then the
64-bit trailer `(seq << 8) | type` descending (higher sequence first,
then higher type first). -/
def ikCompare (a b : MemEntry) : Ordering :=
  match bytesCompare a.ukey b.ukey with
  | .eq => if tagOf b < tagOf a then .lt else if tagOf a < tagOf b then .gt else .eq
  | o => o

/-- Modelled from the spec: `LookupKey` (dbformat is not under src/): an
internal key with sequence = snapshot and type = kValueTypeForSeek = 1,
the maximum type tag. The value component is unused. -/
def lookupKey (k : Bytes) (snapshot : Nat) : MemEntry :=
  ⟨k, snapshot, 1, []⟩

/-- The skip list's `Insert` (db/skiplist.h): splice the new entry in
front of the first entry that is `≥` it (`FindGreaterOrEqual`), keeping
the list sorted by `ikCompare`. -/
def skipInsert (e : MemEntry) : List MemEntry → List MemEntry
  | [] => [e]
  | x :: xs => if ikCompare x e = .lt then x :: skipInsert e xs else e :: x :: xs

/-- The comparison `FindGreaterOrEqual` applies at each node: true when
the node's key is not less than the target. -/
def geLookup (target x : MemEntry) : Bool :=
  match ikCompare x target with
  | .lt => false
  | _ => true

/-- The skip-list iterator `Seek` (db/skiplist.h `FindGreaterOrEqual`):
the first entry of the sorted list that is not less than the target. -/
def seekGE (mem : List MemEntry) (target : MemEntry) : Option MemEntry :=
  mem.find? (geLookup target)

/-- Outcome of `MemTable::Get` when the seek hits the searched user key:
a live value, or a tombstone (which `MemTable::Get` reports by setting
the status to NotFound and returning true). -/
inductive MemGetResult where
  | found (v : Bytes)
  | deleted
  deriving DecidableEq, Repr

/-- Embeds `MemTable::Get` (db/memtable.cc): seek to the first entry `≥`
the lookup key; on a hit, if the user key matches, answer from the type
tag (`kTypeValue` → value, `kTypeDeletion` → NotFound); otherwise the
key is not in this memtable (`none`). -/
def memTableGet (k : Bytes) (snapshot : Nat) (mem : List MemEntry) : Option MemGetResult :=
  match seekGE mem (lookupKey k snapshot) with
  | none => none
  | some e =>
    match bytesCompare e.ukey k with
    | .eq =>
      match e.vtype with
      | 1 => some (.found e.value)
      | 0 => some .deleted
      | _ => none
    | _ => none

/-- The DB state visible to the single-writer read-your-writes scenario:
the last assigned sequence number and the active memtable. In this
scenario there is no immutable memtable and the current Version holds no
files, so a memtable miss yields NotFound. -/
structure DBState where
  lastSeq : Nat
  mem : List MemEntry
  deriving DecidableEq, Repr

/-- A freshly opened empty database. -/
def initDB : DBState := ⟨0, []⟩

/-- Embeds `DB::Put` through `DBImpl::Write` (db/db_impl.cc): the
one-element batch gets sequence `last_sequence + 1`, is inserted into
the memtable by `MemTable::Add(seq, kTypeValue, key, value)`, and
`last_sequence` advances by the batch count (1). -/
def dbPut (k v : Bytes) (st : DBState) : DBState :=
  ⟨st.lastSeq + 1, skipInsert ⟨k, st.lastSeq + 1, 1, v⟩ st.mem⟩

/-- Embeds `DB::Delete` through `DBImpl::Write`: as `dbPut`, with tag
`kTypeDeletion` and an empty value. -/
def dbDelete (k : Bytes) (st : DBState) : DBState :=
  ⟨st.lastSeq + 1, skipInsert ⟨k, st.lastSeq + 1, 0, []⟩ st.mem⟩

/-- Result of `DBImpl::Get` in this scenario: a value or NotFound. -/
inductive DBGetResult where
  | value (v : Bytes)
  | notFound
  deriving DecidableEq, Repr

/-- Embeds `DBImpl::Get` (db/db_impl.cc) with `options.snapshot ==
nullptr`: the snapshot is `versions_->LastSequence()`; the memtable is
probed first; on a miss the immutable memtable (absent here) and then
`Version::Get` are consulted, and a Version with no files returns
NotFound. -/
def dbGet (k : Bytes) (st : DBState) : DBGetResult :=
  match memTableGet k st.lastSeq st.mem with
  | some (.found v) => .value v
  | some .deleted => .notFound
  | none => .notFound

/-- One write-path operation of the scenario. -/
inductive WriteOp where
  | put (k v : Bytes)
  | del (k : Bytes)
  deriving DecidableEq, Repr

/-- Apply one operation to the database. -/
def applyOp (st : DBState) : WriteOp → DBState
  | .put k v => dbPut k v st
  | .del k => dbDelete k st

/-- Apply a sequence of operations to a freshly opened database. -/
def applyOps (ops : List WriteOp) : DBState := ops.foldl applyOp initDB

/-- The user key an operation touches. -/
def opKey : WriteOp → Bytes
  | .put k _ => k
  | .del k => k

/-- The last operation of the sequence that touches key `k`. -/
def lastOpOn (k : Bytes) (ops : List WriteOp) : Option WriteOp :=
  ops.reverse.find? fun o => decide (opKey o = k)

/-- Proof-side abstraction: whether an entry carries exactly user key
`k`. -/
def ukeyEq (k : Bytes) (e : MemEntry) : Bool :=
  match bytesCompare e.ukey k with
  | .eq => true
  | _ => false

/-- Proof-side abstraction: the first entry of the memtable list whose
user key is exactly `k` (under sortedness, the newest version of `k`). -/
def topOf (k : Bytes) (mem : List MemEntry) : Option MemEntry :=
  mem.find? (ukeyEq k)

/-- Proof-side abstraction: the answer `MemTable::Get` derives from a
hit entry. -/
def entryAnswer (e : MemEntry) : Option MemGetResult :=
  match e.vtype with
  | 1 => some (.found e.value)
  | 0 => some .deleted
  | _ => none

/-- The answer the specification promises for `get(k)` after `ops`. -/
def expectedAnswer (k : Bytes) (ops : List WriteOp) : DBGetResult :=
  match lastOpOn k ops with
  | some (.put _ v) => .value v
  | some (.del _) => .notFound
  | none => .notFound

/-- The invariant the write path maintains on the database state: the
memtable is strictly sorted by the internal-key comparator, and every
entry carries a sequence number at most `last_sequence` and a valid type
tag. -/
def RYWInv (st : DBState) : Prop :=
  st.mem.Pairwise (fun a b => ikCompare a b = .lt) ∧
  ∀ e ∈ st.mem, e.seq ≤ st.lastSeq ∧ e.vtype ≤ 1

/-! Fixed-width and varint encodings shared by the memtable entry format
and internal-key parsing. -/

/-- Modelled from the spec: `EncodeFixed64` (util/coding is not under
src/): little-endian byte serialization; `encodeFixedLE n v` emits `n`
bytes, least significant first. -/
def encodeFixedLE : Nat → Nat → Bytes
  | 0, _ => []
  | n + 1, v => (v % 256) :: encodeFixedLE n (v / 256)

/-- The 8-byte little-endian encoding of a 64-bit value. -/
def encodeFixed64 (v : Nat) : Bytes := encodeFixedLE 8 v

/-- Modelled from the spec: `DecodeFixed64` (util/coding is not under
src/): read a little-endian number from the byte list. -/
def decodeFixedLE : Bytes → Nat
  | [] => 0
  | b :: bs => b + 256 * decodeFixedLE bs

/-- Modelled from the spec: `VarintLength` (util/coding is not under
src/): number of bytes of the varint encoding. -/
def varintLength (v : Nat) : Nat :=
  if v < 128 then 1 else 1 + varintLength (v / 128)
  decreasing_by exact Nat.div_lt_self (by omega) (by omega)

/-- Modelled from the spec: `EncodeVarint32` (util/coding is not under
src/): base-128 encoding, 7 data bits per byte, continuation bit 0x80 on
every byte but the last, least-significant group first. -/
def encodeVarint32 (v : Nat) : Bytes :=
  if v < 128 then [v] else (v % 128 + 128) :: encodeVarint32 (v / 128)
  decreasing_by exact Nat.div_lt_self (by omega) (by omega)

/-- Embeds `MemTable::Add` (db/memtable.cc): the buffer inserted into the
skip list, laid out as
`varint32(internal_key_size) ‖ key ‖ fixed64((s << 8) | type) ‖
varint32(value_size) ‖ value` with `internal_key_size = key_size + 8`. -/
def memTableAddEntry (s : Nat) (vtype : Nat) (key value : Bytes) : Bytes :=
  let keySize := key.length
  let valSize := value.length
  let internalKeySize := keySize + 8
  encodeVarint32 internalKeySize ++ key
    ++ encodeFixed64 ((s <<< 8) ||| vtype)
    ++ encodeVarint32 valSize ++ value

/-! Compaction drop rules (`DBImpl::DoCompactionWork`, db/db_impl.cc). -/

/-- Modelled from the spec: `kMaxSequenceNumber = (1 << 56) - 1`
(dbformat is not under src/; the spec fixes sequence numbers at 56
bits). -/
def kMaxSequenceNumber : Nat := (1 <<< 56) - 1

/-- A successfully parsed internal key. -/
structure ParsedInternalKey where
  userKey : Bytes
  sequence : Nat
  vtype : Nat
  deriving DecidableEq, Repr

/-- Modelled from the spec: `ParseInternalKey` (dbformat is not under
src/): an internal key is `user_key ‖ u64_le((seq << 8) | type)`; keys
shorter than 8 bytes fail, the low trailer byte is the type and must be
a valid tag (≤ kTypeValue = 1), the high 56 bits are the sequence. -/
def parseInternalKey (key : Bytes) : Option ParsedInternalKey :=
  if key.length < 8 then none
  else
    let num := decodeFixedLE (key.drop (key.length - 8))
    let c := num % 256
    if c ≤ 1 then some ⟨key.take (key.length - 8), num / 256, c⟩ else none

/-- The per-user-key tracking state of the compaction loop:
`current_user_key`, `has_current_user_key`, `last_sequence_for_key`. -/
structure CompactState where
  currentUserKey : Bytes
  hasCurrentUserKey : Bool
  lastSequenceForKey : Nat
  deriving DecidableEq, Repr

/-- The tracking state at loop entry and after a parse failure. -/
def resetCompactState : CompactState := ⟨[], false, kMaxSequenceNumber⟩

/-- Embeds one iteration of the key loop of `DBImpl::DoCompactionWork`
(db/db_impl.cc:1083-1127): parse the internal key; on failure keep the
entry and reset the tracking state; otherwise refresh the state on a new
user key, decide `drop` by rule (A) (`last_sequence_for_key ≤
smallest_snapshot`) or rule (B) (deletion, `seq ≤ smallest_snapshot`,
and `IsBaseLevelForKey`), and record the entry's sequence. Returns the
`drop` flag and the state for the next iteration. `isBaseLevelForKey`
abstracts `compact->compaction->IsBaseLevelForKey`. -/
def compactStep (smallestSnapshot : Nat) (isBaseLevelForKey : Bytes → Bool)
    (st : CompactState) (key : Bytes) : Bool × CompactState :=
  match parseInternalKey key with
  | none => (false, resetCompactState)
  | some ikey =>
    let st1 :=
      if st.hasCurrentUserKey = false ∨
          bytesCompare ikey.userKey st.currentUserKey ≠ Ordering.eq then
        (⟨ikey.userKey, true, kMaxSequenceNumber⟩ : CompactState)
      else st
    let drop :=
      if st1.lastSequenceForKey ≤ smallestSnapshot then true
      else if ikey.vtype = 0 ∧ ikey.sequence ≤ smallestSnapshot ∧
          isBaseLevelForKey ikey.userKey = true then true
      else false
    (drop, ⟨st1.currentUserKey, st1.hasCurrentUserKey, ikey.sequence⟩)

/-- The condition the claim's rule (A) describes: the previously seen
entry of this compaction had the same user key and a sequence number
at or below the smallest snapshot. -/
def prevEntryHidden (st : CompactState) (uk : Bytes) (snapshot : Nat) : Prop :=
  st.hasCurrentUserKey = true ∧ st.currentUserKey = uk ∧
    st.lastSequenceForKey ≤ snapshot

/-! Compaction scoring (`VersionSet::Finalize`, db/version_set.cc). -/

/-- Total number of levels (config::kNumLevels; dbformat is not under
src/, value from the original design). -/
def kNumLevels : Nat := 7

/-- Level-0 compaction trigger (config::kL0_CompactionTrigger = 4). -/
def kL0CompactionTrigger : Nat := 4

/-- A Version as `Finalize` sees it: the byte sizes of the files at each
level (`files_[level]`, each element one file's `file_size`). -/
structure LVersion where
  files : Nat → List Nat

/-- Embeds `TotalFileSize` (db/version_set.cc): sum of the file sizes. -/
def totalFileSize (files : List Nat) : Nat := files.sum

/-- Embeds `MaxBytesForLevel` (db/version_set.cc): `result = 10 * 2^20`,
then `result *= 10` while `level > 1`. Doubles are modelled as exact
rationals. -/
def maxBytesForLevelLoop : Nat → ℚ → ℚ
  | level, result =>
    if level > 1 then maxBytesForLevelLoop (level - 1) (result * 10) else result
  decreasing_by omega

/-- The threshold `MaxBytesForLevel(options, level)`. -/
def maxBytesForLevel (level : Nat) : ℚ :=
  maxBytesForLevelLoop level (10 * 1048576)

/-- The score `VersionSet::Finalize` computes for one level: level 0 by
file count over `kL0_CompactionTrigger`, deeper levels by total bytes
over `MaxBytesForLevel`. -/
def levelScore (v : LVersion) (level : Nat) : ℚ :=
  if level = 0 then ((v.files 0).length : ℚ) / (kL0CompactionTrigger : ℚ)
  else (totalFileSize (v.files level) : ℚ) / maxBytesForLevel level

/-- One iteration of the `Finalize` scan: keep the better of the best
pair so far and the current level's score (`if (score > best_score)`). -/
def finalizeStep (f : Nat → ℚ) (best : Int × ℚ) (level : Nat) : Int × ℚ :=
  if best.2 < f level then ((level : Int), f level) else best

/-- Embeds `VersionSet::Finalize` (db/version_set.cc): scan levels `0 ≤
level < kNumLevels - 1`, keeping the best (level, score) pair, starting
from `(-1, -1)`; the result is stored in `compaction_level_` and
`compaction_score_`. -/
def finalize (v : LVersion) : Int × ℚ :=
  (List.range (kNumLevels - 1)).foldl (finalizeStep (levelScore v)) (-1, -1)

/-! Seek budget of newly added files (`VersionSet::Builder::Apply`,
db/version_set.cc). -/

/-- Conversion of a `uint64_t` value to a C `int` (32-bit, two's
complement wrap-around), as `static_cast<int>` performs it. -/
def toInt32 (n : Nat) : Int :=
  if n % 2 ^ 32 < 2 ^ 31 then ((n % 2 ^ 32 : Nat) : Int)
  else ((n % 2 ^ 32 : Nat) : Int) - 2 ^ 32

/-- Embeds the `allowed_seeks` assignment of `VersionSet::Builder::Apply`
(db/version_set.cc:848-850): `f->allowed_seeks =
static_cast<int>(f->file_size / 16384U); if (f->allowed_seeks < 100)
f->allowed_seeks = 100;`. -/
def builderAllowedSeeks (fileSize : Nat) : Int :=
  let a := toInt32 (fileSize / 16384)
  if a < 100 then 100 else a

/-! Statuses and the write path's background error
(`DBImpl::Write` / `DBImpl::MakeRoomForWrite` /
`DBImpl::RecordBackgroundError`, db/db_impl.cc). -/

/-- The error kinds of `Status` (include/leveldb/status.h). -/
inductive ErrKind where
  | notFound
  | corruption
  | notSupported
  | invalidArgument
  | ioError
  deriving DecidableEq, Repr

/-- A `Status`: `none` is OK, `some e` an error of kind `e`. -/
abbrev LStatus := Option ErrKind

/-- The write-path state the background-error claims concern: the
latched `bg_error_` and `versions_->LastSequence()`. -/
structure WriteDB where
  bgError : LStatus
  lastSequence : Nat
  deriving DecidableEq, Repr

/-- Embeds `DBImpl::RecordBackgroundError` (db/db_impl.cc:727-733): latch
the first background error; later errors do not overwrite it. -/
def recordBackgroundError (st : WriteDB) (s : LStatus) : WriteDB :=
  if st.bgError = none then { st with bgError := s } else st

/-- Embeds the outcome of `DBImpl::MakeRoomForWrite`
(db/db_impl.cc:1536-1599) as seen by `Write`: a latched background error
is yielded immediately; the remaining branches (slowdown sleep, memtable
rotation, waits) end the loop with OK. -/
def makeRoomForWrite (st : WriteDB) : LStatus := st.bgError

/-- Embeds `DBImpl::Write` (db/db_impl.cc:1396-1480) for a writer that
reached the queue head with a `count`-operation batch: after
`MakeRoomForWrite`, append to the WAL (`log_->AddRecord`, outcome
`addRecordResult`), fsync when `sync` (`logfile_->Sync()`, outcome
`syncResult`), insert into the memtable (cannot fail), and latch the
error via `RecordBackgroundError` only when the fsync failed
(`sync_error`). `last_sequence` advances by the batch count. Returns the
status the writer sees and the new state. -/
def dbWrite (st : WriteDB) (sync : Bool) (count : Nat)
    (addRecordResult syncResult : LStatus) : LStatus × WriteDB :=
  match makeRoomForWrite st with
  | some e => (some e, st)
  | none =>
    let s1 := addRecordResult
    let s2 := if s1 = none ∧ sync = true then syncResult else s1
    let syncError := s1 = none ∧ sync = true ∧ syncResult ≠ none
    let st1 := if syncError then recordBackgroundError st s2 else st
    (s2, { st1 with lastSequence := st.lastSequence + count })

/-! Table-cache open fallback (`TableCache::FindTable`,
db/table_cache.cc). -/

/-- The two on-disk names a sorted table may carry. -/
inductive TableFileKind where
  | ldb
  | sst
  deriving DecidableEq, Repr

/-- Embeds the open sequence of `TableCache::FindTable`
(db/table_cache.cc:49-66) on a cache miss: open `<number>.ldb`
(outcome `ldbOpen`); if that fails — with any error — also open the
legacy `<number>.sst` (outcome `sstOpen`), and on legacy success reset
the status to OK. Returns the list of file kinds tried, in order, and
the resulting status. -/
def findTableOpen (ldbOpen sstOpen : LStatus) : List TableFileKind × LStatus :=
  match ldbOpen with
  | none => ([.ldb], none)
  | some e => ([.ldb, .sst], if sstOpen = none then none else some e)

/-! Arena allocation (`Arena::Allocate`, util/arena.h and
`Arena::AllocateFallback`, util/arena.cc). -/

/-- The arena chunk size `kBlockSize = 4096`. -/
def kBlockSize : Nat := 4096

/-- Arena state: bytes remaining in the current chunk
(`alloc_bytes_remaining_`) and the sizes of the blocks allocated so far
(`blocks_`, appended to by `AllocateNewBlock`). -/
structure ArenaState where
  allocRemaining : Nat
  blocks : List Nat
  deriving DecidableEq, Repr

/-- Where an allocation was served from. -/
inductive AllocSource where
  | currentBlock
  | dedicatedBlock
  | freshChunk
  deriving DecidableEq, Repr

/-- Embeds `Arena::AllocateFallback` (util/arena.cc:27-44): requests
larger than a quarter chunk get a dedicated block of exactly the
requested size, leaving the current chunk untouched; otherwise a fresh
`kBlockSize` chunk is allocated and the request served from its start. -/
def allocateFallback (bytes : Nat) (st : ArenaState) : AllocSource × ArenaState :=
  if bytes > kBlockSize / 4 then
    (.dedicatedBlock, { st with blocks := st.blocks ++ [bytes] })
  else
    (.freshChunk, ⟨kBlockSize - bytes, st.blocks ++ [kBlockSize]⟩)

/-- Embeds `Arena::Allocate` (util/arena.h:57-80): serve from the
current chunk when it has room, else fall back. -/
def allocate (bytes : Nat) (st : ArenaState) : AllocSource × ArenaState :=
  if bytes ≤ st.allocRemaining then
    (.currentBlock, { st with allocRemaining := st.allocRemaining - bytes })
  else allocateFallback bytes st

/-! Obsolete-file collection (`DBImpl::RemoveObsoleteFiles`,
db/db_impl.cc). -/

/-- Modelled from the spec: the file types `ParseFileName` can report
(filename.h is not under src/; kinds from the spec's on-disk layout). -/
inductive LFileType where
  | logFile
  | dbLockFile
  | tableFile
  | descriptorFile
  | currentFile
  | tempFile
  | infoLogFile
  deriving DecidableEq, Repr

/-- The state `RemoveObsoleteFiles` consults: the latched background
error, `pending_outputs_`, the live files of all versions, the
version set's log/prev-log/manifest numbers, and the parsed directory
listing (`none` for names `ParseFileName` rejects, which are left
alone). -/
structure GCState where
  bgError : LStatus
  pendingOutputs : List Nat
  liveVersionFiles : List Nat
  logNumber : Nat
  prevLogNumber : Nat
  manifestFileNumber : Nat
  dirFiles : List (Option (Nat × LFileType))
  deriving DecidableEq, Repr

/-- The keep decision of `DBImpl::RemoveObsoleteFiles`
(db/db_impl.cc:246-290) for one parsed file name, where `live` is
`pending_outputs_ ∪ versions_->AddLiveFiles`. -/
def keepFile (st : GCState) (number : Nat) (ty : LFileType) : Bool :=
  let live := st.pendingOutputs ++ st.liveVersionFiles
  match ty with
  | .logFile => decide (number ≥ st.logNumber ∨ number = st.prevLogNumber)
  | .descriptorFile => decide (number ≥ st.manifestFileNumber)
  | .tableFile => live.contains number
  | .tempFile => live.contains number
  | .currentFile => true
  | .dbLockFile => true
  | .infoLogFile => true

/-- Embeds `DBImpl::RemoveObsoleteFiles` (db/db_impl.cc:221-310): after a
background error, return at once; otherwise delete every parsed
directory entry the keep rules reject, evicting deleted tables from the
table cache. Returns the deleted files and the evicted table numbers. -/
def removeObsoleteFiles (st : GCState) : List (Nat × LFileType) × List Nat :=
  if st.bgError ≠ none then ([], [])
  else
    let dels := st.dirFiles.filterMap fun f =>
      match f with
      | none => none
      | some (number, ty) =>
        if keepFile st number ty then none else some (number, ty)
    (dels, (dels.filter fun p => p.2 = LFileType.tableFile).map Prod.fst)

/-! Memtable flush (`DBImpl::WriteLevel0Table`, db/db_impl.cc). -/

/-- The `FileMetaData` fields `WriteLevel0Table` fills for the new
table. -/
structure SSTMeta where
  number : Nat
  fileSize : Nat
  smallest : Bytes
  largest : Bytes
  deriving DecidableEq, Repr

/-- Embeds the install step of `DBImpl::WriteLevel0Table`
(db/db_impl.cc:564-580): after `BuildTable` (outcome `buildStatus`,
table described by `meta`), the file is added to the `VersionEdit` —
at the level `PickLevelForMemTableOutput` chooses when a base Version
exists, else level 0 — only when the build succeeded and
`meta.file_size > 0`. Returns the edit's added files. -/
def writeLevel0Additions (buildStatus : LStatus) (meta : SSTMeta)
    (hasBase : Bool) (pickLevel : Bytes → Bytes → Nat) : List (Nat × SSTMeta) :=
  if buildStatus = none ∧ meta.fileSize > 0 then
    let level := if hasBase then pickLevel meta.smallest meta.largest else 0
    [(level, meta)]
  else []

/-! Theorems. General-purpose lemmas first, then one theorem per checked
property, each with its witness or counterexample. -/

/-- Bit-packing: appending low bits by `lor` is addition when they fit. -/
theorem mul_two_pow_lor_eq_add (k : Nat) :
    ∀ s t : Nat, t < 2 ^ k → (s * 2 ^ k) ||| t = s * 2 ^ k + t := by
  induction k with
  | zero =>
    intro s t ht
    interval_cases t
    simp
  | succ k ih =>
    intro s t ht
    have hbit : Nat.bit t.bodd t.div2 = t := Nat.bit_decomp t
    have h2 : s * 2 ^ (k + 1) = Nat.bit false (s * 2 ^ k) := by
      rw [Nat.bit_val]
      simp [pow_succ]
      ring
    have hd : t.bodd.toNat + 2 * t.div2 = t := Nat.bodd_add_div2 t
    have ht2 : t.div2 < 2 ^ k := by
      rw [pow_succ] at ht
      omega
    rw [← hbit, h2, Nat.lor_bit]
    rw [Nat.bit_val, Nat.bit_val, Bool.false_or, ih s t.div2 ht2, hbit]
    have hb : (false.toNat : Nat) = 0 := rfl
    omega

/-- The internal-key trailer `(s << 8) | t` is `s * 256 + t` for a valid
type tag. -/
theorem shiftLeft_or_tag (s t : Nat) (ht : t < 256) :
    (s <<< 8) ||| t = s * 256 + t := by
  have h := mul_two_pow_lor_eq_add 8 s t (by norm_num at ht ⊢; omega)
  rw [Nat.shiftLeft_eq]
  norm_num at h ⊢
  omega

/-- Little-endian encoding length. -/
theorem encodeFixedLE_length (n v : Nat) : (encodeFixedLE n v).length = n := by
  induction n generalizing v with
  | zero => rfl
  | succ n ih => simp [encodeFixedLE, ih]

/-- Little-endian decode of an `n`-byte encode recovers the value modulo
`2 ^ (8 n)`. -/
theorem decode_encodeFixedLE (n : Nat) :
    ∀ v : Nat, decodeFixedLE (encodeFixedLE n v) = v % 2 ^ (8 * n) := by
  induction n with
  | zero => intro v; simp [encodeFixedLE, decodeFixedLE, Nat.mod_one]
  | succ n ih =>
    intro v
    have hpow : (2 : Nat) ^ (8 * (n + 1)) = 256 * 2 ^ (8 * n) := by
      rw [Nat.mul_succ, pow_add]
      norm_num
      ring
    rw [encodeFixedLE, decodeFixedLE, ih (v / 256), hpow, Nat.mod_mul]

/-- The varint encoding has the length `VarintLength` computes. -/
theorem encodeVarint32_length (v : Nat) :
    (encodeVarint32 v).length = varintLength v := by
  induction v using Nat.strong_induction_on with
  | _ v ih =>
    by_cases h : v < 128
    · rw [encodeVarint32, varintLength]
      simp [h]
    · rw [encodeVarint32, varintLength]
      simp only [h, if_false, List.length_cons]
      rw [ih (v / 128) (Nat.div_lt_self (by omega) (by omega))]
      omega

/-- C6: the buffer `MemTable::Add` inserts is exactly
`varint32(key_size + 8) ‖ key ‖ u64_le((seq << 8) | type) ‖
varint32(value_size) ‖ value`; the 64-bit trailer equals
`seq * 256 + type`, whose high 56 bits recover the sequence and low 8
bits the type; and the buffer's length matches the `encoded_len` the
code asserts. -/
theorem memTableAdd_encoding (s t : Nat) (key value : Bytes)
    (hs : s < 2 ^ 56) (ht : t < 256) :
    memTableAddEntry s t key value =
      encodeVarint32 (key.length + 8) ++ key ++ encodeFixed64 (s * 256 + t)
        ++ encodeVarint32 value.length ++ value ∧
    decodeFixedLE (encodeFixed64 (s * 256 + t)) = s * 256 + t ∧
    (s * 256 + t) / 256 = s ∧ (s * 256 + t) % 256 = t ∧
    (encodeFixed64 (s * 256 + t)).length = 8 ∧
    (memTableAddEntry s t key value).length =
      varintLength (key.length + 8) + (key.length + 8)
        + varintLength value.length + value.length := by
  have htag : (s <<< 8) ||| t = s * 256 + t := shiftLeft_or_tag s t ht
  have hlt : s * 256 + t < 2 ^ 64 := by
    have : s * 256 ≤ (2 ^ 56 - 1) * 256 := by
      have : s ≤ 2 ^ 56 - 1 := by omega
      exact Nat.mul_le_mul_right 256 this
    norm_num at this ⊢
    omega
  refine ⟨?_, ?_, ?_, ?_, ?_, ?_⟩
  · rw [memTableAddEntry, htag]
  · rw [encodeFixed64, decode_encodeFixedLE]
    norm_num
    omega
  · omega
  · omega
  · rw [encodeFixed64, encodeFixedLE_length]
  · rw [memTableAddEntry, htag]
    simp only [List.length_append, encodeFixed64, encodeFixedLE_length,
      encodeVarint32_length]
    omega

/-- Concrete run of the C6 theorem: a one-byte key, sequence 3, a put. -/
theorem memTableAdd_encoding_witness :
    memTableAddEntry 3 1 [65] [66, 67] =
      encodeVarint32 ([65].length + 8) ++ [65] ++ encodeFixed64 (3 * 256 + 1)
        ++ encodeVarint32 [66, 67].length ++ [66, 67] ∧
    decodeFixedLE (encodeFixed64 (3 * 256 + 1)) = 3 * 256 + 1 ∧
    (3 * 256 + 1) / 256 = 3 ∧ (3 * 256 + 1) % 256 = 1 ∧
    (encodeFixed64 (3 * 256 + 1)).length = 8 ∧
    (memTableAddEntry 3 1 [65] [66, 67]).length =
      varintLength ([65].length + 8) + ([65].length + 8)
        + varintLength [66, 67].length + [66, 67].length :=
  memTableAdd_encoding 3 1 [65] [66, 67] (by norm_num) (by norm_num)

/-- C8: `Arena::Allocate` serves a request from the current chunk when it
fits the remaining bytes; otherwise a request over a quarter chunk
(1024 bytes) gets a dedicated block of exactly the requested size with
the remaining-byte state untouched, and a smaller request gets a fresh
4 KiB chunk and is served from its start. -/
theorem arena_allocate_spec (bytes : Nat) (st : ArenaState) (h : 0 < bytes) :
    (bytes ≤ st.allocRemaining →
      allocate bytes st =
        (.currentBlock, { st with allocRemaining := st.allocRemaining - bytes })) ∧
    (st.allocRemaining < bytes → 1024 < bytes →
      allocate bytes st = (.dedicatedBlock, { st with blocks := st.blocks ++ [bytes] })) ∧
    (st.allocRemaining < bytes → bytes ≤ 1024 →
      allocate bytes st = (.freshChunk, ⟨4096 - bytes, st.blocks ++ [4096]⟩)) := by
  refine ⟨fun hle => ?_, fun hgt hbig => ?_, fun hgt hsmall => ?_⟩
  · simp [allocate, hle]
  · have : ¬ bytes ≤ st.allocRemaining := by omega
    simp [allocate, allocateFallback, this, kBlockSize]
    omega
  · have h1 : ¬ bytes ≤ st.allocRemaining := by omega
    have h2 : ¬ bytes > kBlockSize / 4 := by simp only [kBlockSize]; omega
    simp [allocate, allocateFallback, h1, h2, kBlockSize]
    omega

/-- Concrete run of the C8 theorem: a 2000-byte request with 100 bytes
remaining gets a dedicated block. -/
theorem arena_allocate_spec_witness :
    0 < 2000 ∧
    allocate 2000 ⟨100, []⟩ = (.dedicatedBlock, ⟨100, [2000]⟩) :=
  ⟨by norm_num,
    (arena_allocate_spec 2000 ⟨100, []⟩ (by norm_num)).2.1 (by norm_num) (by norm_num)⟩

/-- C9: after a background error has been recorded,
`RemoveObsoleteFiles` deletes nothing and evicts nothing. -/
theorem removeObsoleteFiles_noop_on_bgError (st : GCState) (e : ErrKind)
    (h : st.bgError = some e) : removeObsoleteFiles st = ([], []) := by
  simp [removeObsoleteFiles, h]

/-- Concrete run of the C9 theorem: with an IO error latched, a stale
table file that the keep rules would otherwise delete stays on disk. -/
theorem removeObsoleteFiles_noop_on_bgError_witness :
    removeObsoleteFiles ⟨some .ioError, [], [], 5, 0, 3, [some (1, .tableFile)]⟩
      = ([], []) :=
  removeObsoleteFiles_noop_on_bgError _ .ioError rfl

/-- C10: when `BuildTable` succeeds but produces an empty file, the
memtable flush adds no file to the `VersionEdit` at any level. -/
theorem writeLevel0_empty_not_added (buildStatus : LStatus) (meta : SSTMeta)
    (hasBase : Bool) (pickLevel : Bytes → Bytes → Nat)
    (hok : buildStatus = none) (hempty : meta.fileSize = 0) :
    writeLevel0Additions buildStatus meta hasBase pickLevel = [] := by
  simp [writeLevel0Additions, hok, hempty]

/-- Concrete run of the C10 theorem: a successful build of an empty
table installs nothing. -/
theorem writeLevel0_empty_not_added_witness :
    writeLevel0Additions none ⟨7, 0, [1], [2]⟩ true (fun _ _ => 2) = [] :=
  writeLevel0_empty_not_added none ⟨7, 0, [1], [2]⟩ true (fun _ _ => 2) rfl rfl

/-- The bytewise comparator reports `eq` exactly on equal byte strings. -/
theorem bytesCompare_eq_iff (a : Bytes) : ∀ b : Bytes, bytesCompare a b = .eq ↔ a = b := by
  induction a with
  | nil => intro b; cases b <;> simp [bytesCompare]
  | cons x xs ih =>
    intro b
    cases b with
    | nil => simp [bytesCompare]
    | cons y ys =>
      simp only [bytesCompare]
      by_cases h1 : x < y
      · simp only [if_pos h1]
        constructor
        · intro h; exact absurd h (by decide)
        · intro h; injection h with h2 h3; omega
      · by_cases h2 : y < x
        · simp only [if_neg h1, if_pos h2]
          constructor
          · intro h; exact absurd h (by decide)
          · intro h; injection h with h3 h4; omega
        · have hxy : x = y := by omega
          simp only [if_neg h1, if_neg h2]
          rw [ih ys]
          constructor
          · intro h; rw [hxy, h]
          · intro h; injection h with h3 h4

/-- Reflexivity of the bytewise comparator. -/
theorem bytesCompare_self (a : Bytes) : bytesCompare a a = .eq :=
  (bytesCompare_eq_iff a a).mpr rfl

/-- The bytewise comparator is antisymmetric: `gt` one way is `lt` the
other. -/
theorem bytesCompare_gt_iff (a : Bytes) :
    ∀ b : Bytes, bytesCompare a b = .gt ↔ bytesCompare b a = .lt := by
  induction a with
  | nil => intro b; cases b <;> simp [bytesCompare]
  | cons x xs ih =>
    intro b
    cases b with
    | nil => simp [bytesCompare]
    | cons y ys =>
      simp only [bytesCompare]
      by_cases h1 : x < y
      · have h2 : ¬ y < x := by omega
        simp [if_pos h1, if_neg h2]
      · by_cases h2 : y < x
        · simp [if_neg h1, if_pos h2]
        · simp only [if_neg h1, if_neg h2]
          exact ih ys

/-- Transitivity of strict bytewise order. -/
theorem bytesCompare_lt_trans :
    ∀ a b c : Bytes, bytesCompare a b = .lt → bytesCompare b c = .lt →
      bytesCompare a c = .lt := by
  intro a
  induction a with
  | nil =>
    intro b c h1 h2
    cases b with
    | nil => simp [bytesCompare] at h1
    | cons y ys =>
      cases c with
      | nil => simp [bytesCompare] at h2
      | cons z zs => simp [bytesCompare]
  | cons x xs ih =>
    intro b c h1 h2
    cases b with
    | nil => simp [bytesCompare] at h1
    | cons y ys =>
      cases c with
      | nil => simp [bytesCompare] at h2
      | cons z zs =>
        simp only [bytesCompare] at h1 h2 ⊢
        by_cases hxy : x < y
        · by_cases hyz : y < z
          · simp [show x < z by omega]
          · by_cases hzy : z < y
            · simp [if_neg hyz, if_pos hzy] at h2
            · have hyz2 : y = z := by omega
              simp [show x < z by omega]
        · by_cases hyx : y < x
          · simp [if_neg hxy, if_pos hyx] at h1
          · have hxy2 : x = y := by omega
            simp only [if_neg hxy, if_neg hyx] at h1
            by_cases hyz : y < z
            · simp [show x < z by omega]
            · by_cases hzy : z < y
              · simp [if_neg hyz, if_pos hzy] at h2
              · have hyz2 : y = z := by omega
                simp only [if_neg hyz, if_neg hzy] at h2
                have hxz : ¬ x < z := by omega
                have hzx : ¬ z < x := by omega
                simp only [if_neg hxz, if_neg hzx]
                exact ih ys zs h1 h2

/-- Characterization of strict internal-key order: smaller user key, or
same user key with a larger trailer. -/
theorem ikCompare_lt_iff (a b : MemEntry) :
    ikCompare a b = .lt ↔
      bytesCompare a.ukey b.ukey = .lt ∨ (a.ukey = b.ukey ∧ tagOf b < tagOf a) := by
  simp only [ikCompare]
  rcases hc : bytesCompare a.ukey b.ukey with _ | _ | _
  · simp
  · have he : a.ukey = b.ukey := (bytesCompare_eq_iff _ _).mp hc
    by_cases h : tagOf b < tagOf a
    · simp [h, he]
    · by_cases h2 : tagOf a < tagOf b
      · simp [h, h2]
      · simp [h, h2]
  · have hne : a.ukey ≠ b.ukey := by
      intro h
      rw [h, bytesCompare_self] at hc
      simp at hc
    simp [hne]

/-- Internal-key order reports `eq` only on identical user key and
trailer. -/
theorem ikCompare_eq_iff (a b : MemEntry) :
    ikCompare a b = .eq ↔ a.ukey = b.ukey ∧ tagOf a = tagOf b := by
  simp only [ikCompare]
  rcases hc : bytesCompare a.ukey b.ukey with _ | _ | _
  · have hne : a.ukey ≠ b.ukey := by
      intro h
      rw [h, bytesCompare_self] at hc
      simp at hc
    simp [hne]
  · have he : a.ukey = b.ukey := (bytesCompare_eq_iff _ _).mp hc
    by_cases h : tagOf b < tagOf a
    · simp only [if_pos h]
      simp [he]
      omega
    · by_cases h2 : tagOf a < tagOf b
      · simp only [if_neg h, if_pos h2]
        simp [he]
        omega
      · simp only [if_neg h, if_neg h2]
        simp [he]
        omega
  · have hne : a.ukey ≠ b.ukey := by
      intro h
      rw [h, bytesCompare_self] at hc
      simp at hc
    simp [hne]

/-- Internal-key antisymmetry. -/
theorem ikCompare_gt_iff (a b : MemEntry) :
    ikCompare a b = .gt ↔ ikCompare b a = .lt := by
  simp only [ikCompare]
  rcases hc : bytesCompare a.ukey b.ukey with _ | _ | _
  · have hba : bytesCompare b.ukey a.ukey = .gt := (bytesCompare_gt_iff _ _).mpr hc
    simp [hba]
  · have he : a.ukey = b.ukey := (bytesCompare_eq_iff _ _).mp hc
    have hba : bytesCompare b.ukey a.ukey = .eq := by rw [← he, bytesCompare_self]
    rw [hba]
    by_cases h : tagOf b < tagOf a
    · have h2 : ¬ tagOf a < tagOf b := by omega
      simp [h, h2]
    · by_cases h2 : tagOf a < tagOf b
      · simp [h, h2]
      · simp [h, h2]
  · have hba : bytesCompare b.ukey a.ukey = .lt := (bytesCompare_gt_iff _ _).mp hc
    simp [hba]

/-- Internal-key strict order is asymmetric. -/
theorem ikCompare_asymm (a b : MemEntry) :
    ikCompare a b = .lt → ikCompare b a = .lt → False := by
  intro h1 h2
  have := (ikCompare_gt_iff a b).mpr h2
  rw [h1] at this
  exact absurd this (by decide)

/-- Internal-key strict order is transitive. -/
theorem ikCompare_lt_trans (a b c : MemEntry) :
    ikCompare a b = .lt → ikCompare b c = .lt → ikCompare a c = .lt := by
  intro h1 h2
  rcases (ikCompare_lt_iff a b).mp h1 with hu1 | ⟨he1, ht1⟩
  · rcases (ikCompare_lt_iff b c).mp h2 with hu2 | ⟨he2, ht2⟩
    · exact (ikCompare_lt_iff a c).mpr (Or.inl (bytesCompare_lt_trans _ _ _ hu1 hu2))
    · exact (ikCompare_lt_iff a c).mpr (Or.inl (he2 ▸ hu1))
  · rcases (ikCompare_lt_iff b c).mp h2 with hu2 | ⟨he2, ht2⟩
    · exact (ikCompare_lt_iff a c).mpr (Or.inl (he1 ▸ hu2))
    · exact (ikCompare_lt_iff a c).mpr (Or.inr ⟨he1.trans he2, by omega⟩)

/-- C2: an input entry of `DoCompactionWork` whose internal key fails to
parse is never dropped and resets the per-user-key tracking state; a
parsed entry is dropped if and only if (A) the previously seen entry of
this compaction had the same user key with sequence ≤
`smallest_snapshot`, or (B) it is a deletion with sequence ≤
`smallest_snapshot` on a base level for its user key. -/
theorem compaction_drop_iff (snap : Nat) (isBase : Bytes → Bool)
    (st : CompactState) (key : Bytes) (hsnap : snap < kMaxSequenceNumber) :
    (parseInternalKey key = none →
      compactStep snap isBase st key = (false, resetCompactState)) ∧
    (∀ ik, parseInternalKey key = some ik →
      ((compactStep snap isBase st key).1 = true ↔
        prevEntryHidden st ik.userKey snap ∨
        (ik.vtype = 0 ∧ ik.sequence ≤ snap ∧ isBase ik.userKey = true))) := by
  constructor
  · intro h
    simp [compactStep, h]
  · intro ik h
    simp only [compactStep, h]
    by_cases hc : st.hasCurrentUserKey = false ∨
        bytesCompare ik.userKey st.currentUserKey ≠ Ordering.eq
    · simp only [if_pos hc]
      have hmax : ¬ kMaxSequenceNumber ≤ snap := Nat.not_le.mpr hsnap
      have hprev : ¬ prevEntryHidden st ik.userKey snap := by
        rintro ⟨h1, h2, h3⟩
        rcases hc with hfalse | hne
        · rw [h1] at hfalse; exact absurd hfalse (by decide)
        · exact hne (by rw [h2]; exact bytesCompare_self _)
      by_cases hb : ik.vtype = 0 ∧ ik.sequence ≤ snap ∧ isBase ik.userKey = true
      · simp [hmax, hb, hprev]
      · simp [hmax, hb, hprev]
    · simp only [if_neg hc]
      push_neg at hc
      obtain ⟨hc1, hc2⟩ := hc
      have h1 : st.hasCurrentUserKey = true := by
        cases hval : st.hasCurrentUserKey
        · exact absurd hval hc1
        · rfl
      have h2 : st.currentUserKey = ik.userKey :=
        ((bytesCompare_eq_iff _ _).mp hc2).symm
      by_cases hA : st.lastSequenceForKey ≤ snap
      · simp [hA, prevEntryHidden, h1, h2]
      · by_cases hb : ik.vtype = 0 ∧ ik.sequence ≤ snap ∧ isBase ik.userKey = true
        · simp [hA, hb, prevEntryHidden, h1, h2]
        · simp [hA, hb, prevEntryHidden, h1, h2]

/-- Concrete run of the C2 theorem: with `smallest_snapshot = 5`, a
tombstone for user key `[7]` at sequence 3 on the base level, seen with
fresh tracking state, is dropped by rule (B). -/
theorem compaction_drop_iff_witness :
    ((compactStep 5 (fun _ => true) resetCompactState
        [7, 0, 3, 0, 0, 0, 0, 0, 0]).1 = true ↔
      prevEntryHidden resetCompactState [7] 5 ∨
        (0 = 0 ∧ 3 ≤ 5 ∧ (fun (_ : Bytes) => true) [7] = true)) ∧
    (compactStep 5 (fun _ => true) resetCompactState
        [7, 0, 3, 0, 0, 0, 0, 0, 0]).1 = true :=
  ⟨(compaction_drop_iff 5 (fun _ => true) resetCompactState
      [7, 0, 3, 0, 0, 0, 0, 0, 0] (by decide)).2 ⟨[7], 3, 0⟩ rfl,
   rfl⟩

/-- C3 counterexample: a transient I/O error on the WAL append
(`log_->AddRecord`) after the batch was accepted is returned to the
caller but is NOT recorded in `bg_error_` — `RecordBackgroundError` runs
only on an fsync failure — and the next `Write` succeeds instead of
returning the recorded error. -/
theorem write_wal_append_error_not_latched :
    (dbWrite ⟨none, 0⟩ true 1 (some .ioError) none).1 = some ErrKind.ioError ∧
    (dbWrite ⟨none, 0⟩ true 1 (some .ioError) none).2.bgError = none ∧
    (dbWrite (dbWrite ⟨none, 0⟩ true 1 (some .ioError) none).2 true 1 none none).1
      = none := by
  refine ⟨rfl, rfl, rfl⟩

/-- C3 (amended): when a transient I/O error occurs while syncing the
WAL (`options.sync` set and `logfile_->Sync()` fails) after the batch
was accepted, the error is recorded as the permanent background error;
and once a background error is recorded, every subsequent `Write`
returns the recorded error and leaves the state unchanged. -/
theorem write_sync_error_latched_permanent (st : WriteDB) (sync : Bool)
    (count : Nat) (arr srr : LStatus) (e : ErrKind) :
    (st.bgError = none → arr = none → sync = true → srr = some e →
      dbWrite st sync count arr srr =
        (some e, ⟨some e, st.lastSequence + count⟩)) ∧
    (st.bgError = some e → dbWrite st sync count arr srr = (some e, st)) := by
  constructor
  · intro h0 h1 h2 h3
    subst h1 h2 h3
    simp [dbWrite, makeRoomForWrite, h0, recordBackgroundError]
  · intro h0
    simp [dbWrite, makeRoomForWrite, h0]

/-- Concrete run of the amended C3 theorem: one failed synced write
latches the error; the next write returns it unchanged. -/
theorem write_sync_error_latched_permanent_witness :
    dbWrite ⟨none, 0⟩ true 1 none (some .ioError)
      = (some .ioError, ⟨some .ioError, 1⟩) ∧
    dbWrite ⟨some .ioError, 1⟩ false 2 none none
      = (some .ioError, ⟨some .ioError, 1⟩) :=
  ⟨(write_sync_error_latched_permanent ⟨none, 0⟩ true 1 none (some .ioError)
      .ioError).1 rfl rfl rfl rfl,
   (write_sync_error_latched_permanent ⟨some .ioError, 1⟩ false 2 none none
      .ioError).2 rfl⟩

/-- C7 counterexample: when opening `<number>.ldb` fails with an error
other than NotFound (here an I/O error), `FindTable` still tries the
legacy `<number>.sst` name — the code checks only `!s.ok()`, not
NotFound — contradicting "tries the legacy name if and only if the
first open fails with NotFound". -/
theorem findTable_legacy_tried_on_io_error :
    (findTableOpen (some .ioError) none).1 = [.ldb, .sst] ∧
    ErrKind.ioError ≠ ErrKind.notFound := by
  refine ⟨rfl, by decide⟩

/-- C7 (amended): on a cache miss `FindTable` opens `<number>.ldb`
first, and tries the legacy `<number>.sst` if and only if the first open
fails with any error; when the legacy open succeeds the lookup continues
with an OK status, and when both opens fail the `.ldb` error is kept. -/
theorem findTable_fallback_spec (ldbOpen sstOpen : LStatus) :
    ((findTableOpen ldbOpen sstOpen).1.head? = some .ldb) ∧
    (TableFileKind.sst ∈ (findTableOpen ldbOpen sstOpen).1 ↔ ldbOpen ≠ none) ∧
    (ldbOpen = none → (findTableOpen ldbOpen sstOpen).2 = none) ∧
    (ldbOpen ≠ none → sstOpen = none → (findTableOpen ldbOpen sstOpen).2 = none) ∧
    (∀ e, ldbOpen = some e → sstOpen ≠ none →
      (findTableOpen ldbOpen sstOpen).2 = some e) := by
  cases ldbOpen with
  | none => simp [findTableOpen]
  | some e0 =>
    by_cases h : sstOpen = none
    · simp [findTableOpen, h]
    · simp [findTableOpen, h]

/-- Concrete run of the amended C7 theorem: `.ldb` missing, legacy
`.sst` present — both names tried, lookup continues OK. -/
theorem findTable_fallback_spec_witness :
    (TableFileKind.sst ∈ (findTableOpen (some .notFound) none).1 ↔
      (some ErrKind.notFound : LStatus) ≠ none) ∧
    (findTableOpen (some .notFound) none).2 = none :=
  ⟨(findTable_fallback_spec (some .notFound) none).2.1,
   (findTable_fallback_spec (some .notFound) none).2.2.2.1 (by decide) rfl⟩

/-- The clamp in `Builder::Apply` is a maximum with 100. -/
theorem int_clamp_eq_max (a : Int) : (if a < 100 then (100 : Int) else a) = max 100 a := by
  by_cases h : a < 100
  · simp [h, max_eq_left h.le]
  · simp [h, max_eq_right (not_lt.mp h)]

/-- C5 counterexample: `allowed_seeks` passes `file_size / 16384`
through `static_cast<int>`; for a recorded file size of `16384 * 2^31`
bytes the quotient `2^31` wraps to a negative `int`, the clamp raises it
to 100, and the result differs from `max(100, size / 16 KiB)` = `2^31`. -/
theorem allowedSeeks_overflow :
    builderAllowedSeeks (16384 * 2 ^ 31) = 100 ∧
    max (100 : Int) (((16384 * 2 ^ 31) / 16384 : Nat) : Int) = 2 ^ 31 ∧
    (100 : Int) ≠ 2 ^ 31 := by
  refine ⟨rfl, by norm_num, by norm_num⟩

/-- C5 (amended): for every file the Builder adds, `allowed_seeks` is
`max(100, int32(file_size / 16384))` where the quotient is truncated to
a signed 32-bit `int`; whenever the quotient is below `2^31` — every
realistic file size — this equals `max(100, file_size / 16 KiB)` as the
claim states. -/
theorem allowedSeeks_spec (fileSize : Nat) :
    builderAllowedSeeks fileSize = max 100 (toInt32 (fileSize / 16384)) ∧
    (fileSize / 16384 < 2 ^ 31 →
      builderAllowedSeeks fileSize = max 100 ((fileSize / 16384 : Nat) : Int)) := by
  constructor
  · simp only [builderAllowedSeeks]
    exact int_clamp_eq_max _
  · intro h
    have ht : toInt32 (fileSize / 16384) = ((fileSize / 16384 : Nat) : Int) := by
      have h32 : fileSize / 16384 % 2 ^ 32 = fileSize / 16384 :=
        Nat.mod_eq_of_lt (by omega)
      simp only [toInt32, h32]
      simp only [if_pos (show fileSize / 16384 < 2 ^ 31 from h)]
    simp only [builderAllowedSeeks, ht]
    exact int_clamp_eq_max _

/-- Concrete run of the amended C5 theorem: a 50 MiB file gets
`max(100, 3200) = 3200` allowed seeks. -/
theorem allowedSeeks_spec_witness :
    (52428800 / 16384 < 2 ^ 31) ∧
    builderAllowedSeeks 52428800 = max 100 ((52428800 / 16384 : Nat) : Int) :=
  ⟨by norm_num, (allowedSeeks_spec 52428800).2 (by norm_num)⟩

/-- The while-loop of `MaxBytesForLevel` multiplies its accumulator by
ten once per level above one. -/
theorem maxBytesForLevelLoop_eq (L : Nat) :
    ∀ r : ℚ, maxBytesForLevelLoop (L + 1) r = r * 10 ^ L := by
  induction L with
  | zero =>
    intro r
    rw [maxBytesForLevelLoop]
    norm_num
  | succ L ih =>
    intro r
    rw [maxBytesForLevelLoop]
    rw [if_pos (by omega : L + 1 + 1 > 1)]
    simp only [Nat.add_sub_cancel]
    rw [ih (r * 10)]
    ring

/-- The level threshold is `10 MiB * 10^(L-1)` for levels at least one. -/
theorem maxBytesForLevel_eq (L : Nat) (h : 1 ≤ L) :
    maxBytesForLevel L = 10 * 1048576 * 10 ^ (L - 1) := by
  obtain ⟨L2, rfl⟩ : ∃ L2, L = L2 + 1 := ⟨L - 1, by omega⟩
  rw [maxBytesForLevel, maxBytesForLevelLoop_eq]
  simp

/-- Invariant of the `Finalize` scan: the final best score dominates all
visited scores and the starting score, and the final pair is either the
start or a visited (level, score) pair. -/
theorem finalizeStep_foldl_inv (f : Nat → ℚ) :
    ∀ (ls : List Nat) (b : Int × ℚ),
      (∀ l ∈ ls, f l ≤ (ls.foldl (finalizeStep f) b).2) ∧
      b.2 ≤ (ls.foldl (finalizeStep f) b).2 ∧
      ((ls.foldl (finalizeStep f) b) = b ∨
        ∃ l ∈ ls, (ls.foldl (finalizeStep f) b) = ((l : Int), f l)) := by
  intro ls
  induction ls with
  | nil => intro b; simp
  | cons x xs ih =>
    intro b
    simp only [List.foldl_cons]
    obtain ⟨ih1, ih2, ih3⟩ := ih (finalizeStep f b x)
    refine ⟨?_, ?_, ?_⟩
    · intro l hl
      rcases List.mem_cons.mp hl with rfl | hl2
      · by_cases h : b.2 < f l
        · have hstep : (finalizeStep f b l).2 = f l := by simp [finalizeStep, h]
          rw [← hstep]
          exact ih2
        · have hstep : (finalizeStep f b l).2 = b.2 := by simp [finalizeStep, h]
          exact le_trans (not_lt.mp h) (hstep ▸ ih2)
      · exact ih1 l hl2
    · have hstep : b.2 ≤ (finalizeStep f b x).2 := by
        by_cases h : b.2 < f x
        · simp only [finalizeStep, if_pos h]
          exact le_of_lt h
        · simp [finalizeStep, h]
      exact le_trans hstep ih2
    · rcases ih3 with heq | ⟨l, hl, heq⟩
      · by_cases h : b.2 < f x
        · right
          refine ⟨x, List.mem_cons_self x xs, ?_⟩
          rw [heq]
          simp [finalizeStep, h]
        · left
          rw [heq]
          simp [finalizeStep, h]
      · right
        exact ⟨l, List.mem_cons_of_mem _ hl, heq⟩

/-- C4: the `Finalize` score of level 0 is the file count over 4, the
score of a level `L ≥ 1` is its total bytes over `10 MiB * 10^(L-1)`,
and `Finalize` returns a considered level holding the maximum score. -/
theorem finalize_spec (v : LVersion) :
    levelScore v 0 = ((v.files 0).length : ℚ) / 4 ∧
    (∀ L, 1 ≤ L → levelScore v L =
      (totalFileSize (v.files L) : ℚ) / (10 * 1048576 * 10 ^ (L - 1))) ∧
    ∃ l : Nat, l < kNumLevels - 1 ∧ finalize v = ((l : Int), levelScore v l) ∧
      ∀ m, m < kNumLevels - 1 → levelScore v m ≤ levelScore v l := by
  refine ⟨?_, ?_, ?_⟩
  · simp [levelScore, kL0CompactionTrigger]
  · intro L hL
    have hne : L ≠ 0 := by omega
    simp [levelScore, hne, maxBytesForLevel_eq L hL]
  · obtain ⟨h1, h2, h3⟩ :=
      finalizeStep_foldl_inv (levelScore v) (List.range (kNumLevels - 1)) (-1, -1)
    rcases h3 with heq | ⟨l, hl, heq⟩
    · exfalso
      have h0 : (0 : ℚ) ≤ levelScore v 0 := by
        simp [levelScore, kL0CompactionTrigger]
        positivity
      have hmem : 0 ∈ List.range (kNumLevels - 1) := by
        simp [kNumLevels]
      have hle := h1 0 hmem
      rw [heq] at hle
      simp only at hle
      linarith
    · refine ⟨l, List.mem_range.mp hl, ?_, ?_⟩
      · rw [finalize, heq]
      · intro m hm
        have hle := h1 m (List.mem_range.mpr hm)
        rw [heq] at hle
        exact hle

/-- Concrete run of the C4 theorem: two level-0 files and one 5000-byte
level-1 file. -/
theorem finalize_spec_witness :
    levelScore ⟨fun l => if l = 0 then [1, 2] else if l = 1 then [5000] else []⟩ 0
      = (((LVersion.files ⟨fun l => if l = 0 then [1, 2] else if l = 1 then [5000] else []⟩ 0).length : ℚ)) / 4 ∧
    levelScore ⟨fun l => if l = 0 then [1, 2] else if l = 1 then [5000] else []⟩ 1
      = ((totalFileSize (LVersion.files ⟨fun l => if l = 0 then [1, 2] else if l = 1 then [5000] else []⟩ 1) : ℚ))
          / (10 * 1048576 * 10 ^ (1 - 1)) :=
  ⟨(finalize_spec _).1,
   (finalize_spec ⟨fun l => if l = 0 then [1, 2] else if l = 1 then [5000] else []⟩).2.1
      1 (by norm_num)⟩

/-- The seek predicate rejects exactly the entries below the target. -/
theorem geLookup_false_iff (t x : MemEntry) :
    geLookup t x = false ↔ ikCompare x t = .lt := by
  simp only [geLookup]
  rcases h : ikCompare x t with _ | _ | _ <;> simp [h]

/-- The user-key predicate accepts exactly the entries comparing equal. -/
theorem ukeyEq_true_iff (k : Bytes) (e : MemEntry) :
    ukeyEq k e = true ↔ bytesCompare e.ukey k = .eq := by
  simp only [ukeyEq]
  rcases h : bytesCompare e.ukey k with _ | _ | _ <;> simp [h]

/-- Membership in a skip-list insert. -/
theorem mem_skipInsert (e y : MemEntry) (l : List MemEntry) :
    y ∈ skipInsert e l ↔ y = e ∨ y ∈ l := by
  induction l with
  | nil => simp [skipInsert]
  | cons x xs ih =>
    simp only [skipInsert]
    by_cases h : ikCompare x e = .lt
    · simp only [if_pos h, List.mem_cons, ih]
      tauto
    · simp only [if_neg h, List.mem_cons]

/-- Inserting an entry that is never key-equal to a resident entry keeps
the skip list strictly sorted. -/
theorem pairwise_skipInsert (e : MemEntry) (l : List MemEntry)
    (hl : l.Pairwise (fun a b => ikCompare a b = .lt))
    (hne : ∀ x ∈ l, ikCompare x e ≠ .eq) :
    (skipInsert e l).Pairwise (fun a b => ikCompare a b = .lt) := by
  induction l with
  | nil => simp [skipInsert]
  | cons x xs ih =>
    obtain ⟨hx, hxs⟩ := List.pairwise_cons.mp hl
    by_cases h : ikCompare x e = .lt
    · simp only [skipInsert, if_pos h]
      refine List.pairwise_cons.mpr
        ⟨?_, ih hxs (fun y hy => hne y (List.mem_cons_of_mem _ hy))⟩
      intro y hy
      rcases (mem_skipInsert e y xs).mp hy with rfl | hy2
      · exact h
      · exact hx y hy2
    · simp only [skipInsert, if_neg h]
      have hgt : ikCompare x e = .gt := by
        rcases hc : ikCompare x e with _ | _ | _
        · exact absurd hc h
        · exact absurd hc (hne x (List.mem_cons_self x xs))
        · rfl
      have hex : ikCompare e x = .lt := (ikCompare_gt_iff x e).mp hgt
      refine List.pairwise_cons.mpr ⟨?_, hl⟩
      intro y hy
      rcases List.mem_cons.mp hy with rfl | hy2
      · exact hex
      · exact ikCompare_lt_trans e x y hex (hx y hy2)

/-- A search whose predicate rejects the inserted entry is unaffected by
the insertion. -/
theorem find?_skipInsert_of_false (p : MemEntry → Bool) (e : MemEntry)
    (l : List MemEntry) (hpe : p e = false) :
    (skipInsert e l).find? p = l.find? p := by
  induction l with
  | nil => simp [skipInsert, List.find?, hpe]
  | cons x xs ih =>
    by_cases h : ikCompare x e = .lt
    · simp only [skipInsert, if_pos h, List.find?]
      cases hpx : p x
      · simpa [hpx] using ih
      · simp [hpx]
    · simp only [skipInsert, if_neg h, List.find?, hpe]

/-- An entry inserted below every resident entry of its user key becomes
the first hit for that key. -/
theorem topOf_skipInsert_self (e : MemEntry) (l : List MemEntry)
    (hlt : ∀ x ∈ l, bytesCompare x.ukey e.ukey = .eq → ikCompare e x = .lt) :
    topOf e.ukey (skipInsert e l) = some e := by
  have hpe : ukeyEq e.ukey e = true := (ukeyEq_true_iff _ _).mpr (bytesCompare_self _)
  induction l with
  | nil => simp [skipInsert, topOf, List.find?, hpe]
  | cons x xs ih =>
    by_cases h : ikCompare x e = .lt
    · have hpx : ukeyEq e.ukey x = false := by
        cases hpx2 : ukeyEq e.ukey x
        · rfl
        · exfalso
          have hcx := (ukeyEq_true_iff _ _).mp hpx2
          exact ikCompare_asymm x e h (hlt x (List.mem_cons_self x xs) hcx)
      simp only [skipInsert, if_pos h, topOf, List.find?, hpx]
      have := ih (fun y hy hEq => hlt y (List.mem_cons_of_mem _ hy) hEq)
      simpa [topOf] using this
    · simp only [skipInsert, if_neg h, topOf, List.find?, hpe]

/-- The memtable lookup of `MemTable::Get` on a sorted memtable whose
trailers all fit under the snapshot answers from the newest resident
entry of the searched user key. -/
theorem memTableGet_eq_topOf (k : Bytes) (snap : Nat) :
    ∀ mem : List MemEntry,
      mem.Pairwise (fun a b => ikCompare a b = .lt) →
      (∀ e ∈ mem, tagOf e ≤ snap * 256 + 1) →
      memTableGet k snap mem = (topOf k mem).bind entryAnswer := by
  intro mem
  induction mem with
  | nil => intro _ _; rfl
  | cons x xs ih =>
    intro hp hb
    obtain ⟨hx, hxs⟩ := List.pairwise_cons.mp hp
    have hbx := hb x (List.mem_cons_self x xs)
    have hbxs : ∀ e ∈ xs, tagOf e ≤ snap * 256 + 1 :=
      fun e he => hb e (List.mem_cons_of_mem _ he)
    have htuk : (lookupKey k snap).ukey = k := rfl
    have httag : tagOf (lookupKey k snap) = snap * 256 + 1 := rfl
    cases hc : bytesCompare x.ukey k with
    | lt =>
      have hik : ikCompare x (lookupKey k snap) = .lt := by
        apply (ikCompare_lt_iff _ _).mpr
        left
        rw [htuk]
        exact hc
      have hpx : geLookup (lookupKey k snap) x = false := (geLookup_false_iff _ _).mpr hik
      have hqx : ukeyEq k x = false := by
        cases hq : ukeyEq k x
        · rfl
        · have := (ukeyEq_true_iff _ _).mp hq
          exact absurd (hc.symm.trans this) (by decide)
      simp only [memTableGet, seekGE, List.find?, hpx, topOf, hqx]
      have := ih hxs hbxs
      simpa [memTableGet, seekGE, topOf] using this
    | eq =>
      have hik : geLookup (lookupKey k snap) x = true := by
        have h1 : ikCompare x (lookupKey k snap) ≠ .lt := by
          intro hlt
          rcases (ikCompare_lt_iff _ _).mp hlt with h2 | ⟨h2, h3⟩
          · rw [htuk] at h2
            exact absurd (hc.symm.trans h2) (by decide)
          · rw [httag] at h3
            omega
        cases h2 : ikCompare x (lookupKey k snap) with
        | lt => exact absurd h2 h1
        | eq => simp [geLookup, h2]
        | gt => simp [geLookup, h2]
      have hq : ukeyEq k x = true := (ukeyEq_true_iff _ _).mpr hc
      simp only [memTableGet, seekGE, List.find?, hik, topOf, hq, hc]
      rfl
    | gt =>
      have h3 : bytesCompare x.ukey (lookupKey k snap).ukey = .gt := hc
      have hik : geLookup (lookupKey k snap) x = true := by
        simp [geLookup, ikCompare, h3]
      have hq : ukeyEq k x = false := by
        cases hq2 : ukeyEq k x
        · rfl
        · have := (ukeyEq_true_iff _ _).mp hq2
          exact absurd (hc.symm.trans this) (by decide)
      have hnone : xs.find? (ukeyEq k) = none := by
        apply List.find?_eq_none.mpr
        intro y hy hq2
        have hey := (ukeyEq_true_iff _ _).mp hq2
        rcases (ikCompare_lt_iff _ _).mp (hx y hy) with h2 | ⟨h2, _⟩
        · have hkx : bytesCompare k x.ukey = .lt := (bytesCompare_gt_iff _ _).mp hc
          have hky : bytesCompare k y.ukey = .lt := bytesCompare_lt_trans _ _ _ hkx h2
          have hyk : bytesCompare y.ukey k = .gt := (bytesCompare_gt_iff _ _).mpr hky
          exact absurd (hyk.symm.trans hey) (by decide)
        · rw [h2] at hc
          exact absurd (hc.symm.trans hey) (by decide)
      simp only [memTableGet, seekGE, List.find?, hik, topOf, hq, hc, hnone]
      rfl

/-- The invariant bounds every resident trailer by the lookup trailer at
the current sequence. -/
theorem RYWInv_tagBound (st : DBState) (hInv : RYWInv st) :
    ∀ e ∈ st.mem, tagOf e ≤ st.lastSeq * 256 + 1 := by
  intro e he
  obtain ⟨h1, h2⟩ := hInv.2 e he
  simp only [tagOf]
  omega

/-- Both write operations preserve the database invariant. -/
theorem inv_applyOp (st : DBState) (hInv : RYWInv st) (op : WriteOp) :
    RYWInv (applyOp st op) := by
  obtain ⟨hp, hbound⟩ := hInv
  cases op with
  | put k v =>
    refine ⟨?_, ?_⟩
    · apply pairwise_skipInsert _ _ hp
      intro x hxm hEq
      obtain ⟨h1, h2⟩ := (ikCompare_eq_iff _ _).mp hEq
      obtain ⟨hs, ht⟩ := hbound x hxm
      simp only [tagOf] at h2
      omega
    · intro e he
      rcases (mem_skipInsert _ _ _).mp he with rfl | he2
      · exact ⟨le_refl _, by norm_num⟩
      · obtain ⟨hs, ht⟩ := hbound e he2
        exact ⟨by simp only [applyOp, dbPut]; omega, ht⟩
  | del k =>
    refine ⟨?_, ?_⟩
    · apply pairwise_skipInsert _ _ hp
      intro x hxm hEq
      obtain ⟨h1, h2⟩ := (ikCompare_eq_iff _ _).mp hEq
      obtain ⟨hs, ht⟩ := hbound x hxm
      simp only [tagOf] at h2
      omega
    · intro e he
      rcases (mem_skipInsert _ _ _).mp he with rfl | he2
      · exact ⟨le_refl _, by norm_num⟩
      · obtain ⟨hs, ht⟩ := hbound e he2
        exact ⟨by simp only [applyOp, dbDelete]; omega, ht⟩

/-- A read of the key an operation just wrote sees that operation. -/
theorem dbGet_applyOp_same (st : DBState) (hInv : RYWInv st) (op : WriteOp) :
    dbGet (opKey op) (applyOp st op) =
      (match op with
       | .put _ v => DBGetResult.value v
       | .del _ => DBGetResult.notFound) := by
  have hinv2 := inv_applyOp st hInv op
  have hp2 := hinv2.1
  have hb2 := RYWInv_tagBound _ hinv2
  obtain ⟨hp, hbound⟩ := hInv
  cases op with
  | put k v =>
    simp only [applyOp, dbPut] at hp2 hb2
    simp only [dbGet, opKey, applyOp, dbPut]
    rw [memTableGet_eq_topOf k (st.lastSeq + 1) _ hp2 hb2]
    have htop : topOf k (skipInsert ⟨k, st.lastSeq + 1, 1, v⟩ st.mem) =
        some ⟨k, st.lastSeq + 1, 1, v⟩ := by
      exact topOf_skipInsert_self (⟨k, st.lastSeq + 1, 1, v⟩ : MemEntry) st.mem (by
        intro x hxm hEq
        apply (ikCompare_lt_iff _ _).mpr
        right
        refine ⟨((bytesCompare_eq_iff _ _).mp hEq).symm, ?_⟩
        obtain ⟨hs, ht⟩ := hbound x hxm
        simp only [tagOf]
        omega)
    rw [htop]
    rfl
  | del k =>
    simp only [applyOp, dbDelete] at hp2 hb2
    simp only [dbGet, opKey, applyOp, dbDelete]
    rw [memTableGet_eq_topOf k (st.lastSeq + 1) _ hp2 hb2]
    have htop : topOf k (skipInsert ⟨k, st.lastSeq + 1, 0, []⟩ st.mem) =
        some ⟨k, st.lastSeq + 1, 0, []⟩ := by
      exact topOf_skipInsert_self (⟨k, st.lastSeq + 1, 0, []⟩ : MemEntry) st.mem (by
        intro x hxm hEq
        apply (ikCompare_lt_iff _ _).mpr
        right
        refine ⟨((bytesCompare_eq_iff _ _).mp hEq).symm, ?_⟩
        obtain ⟨hs, ht⟩ := hbound x hxm
        simp only [tagOf]
        omega)
    rw [htop]
    rfl

/-- A read of any other key is unaffected by the operation. -/
theorem dbGet_applyOp_other (st : DBState) (hInv : RYWInv st) (op : WriteOp)
    (k : Bytes) (hk : opKey op ≠ k) :
    dbGet k (applyOp st op) = dbGet k st := by
  have hinv2 := inv_applyOp st hInv op
  have hp2 := hinv2.1
  have hb2 := RYWInv_tagBound _ hinv2
  obtain ⟨hp, hbound⟩ := hInv
  have hb1 := RYWInv_tagBound st ⟨hp, hbound⟩
  cases op with
  | put k2 v =>
    simp only [opKey] at hk
    simp only [applyOp, dbPut] at hp2 hb2
    simp only [dbGet, applyOp, dbPut]
    rw [memTableGet_eq_topOf k (st.lastSeq + 1) _ hp2 hb2]
    rw [memTableGet_eq_topOf k st.lastSeq _ hp hb1]
    have hq : ukeyEq k (⟨k2, st.lastSeq + 1, 1, v⟩ : MemEntry) = false := by
      cases hq2 : ukeyEq k (⟨k2, st.lastSeq + 1, 1, v⟩ : MemEntry)
      · rfl
      · have := (bytesCompare_eq_iff _ _).mp ((ukeyEq_true_iff _ _).mp hq2)
        exact absurd this hk
    rw [topOf, topOf, find?_skipInsert_of_false _ _ _ hq]
  | del k2 =>
    simp only [opKey] at hk
    simp only [applyOp, dbDelete] at hp2 hb2
    simp only [dbGet, applyOp, dbDelete]
    rw [memTableGet_eq_topOf k (st.lastSeq + 1) _ hp2 hb2]
    rw [memTableGet_eq_topOf k st.lastSeq _ hp hb1]
    have hq : ukeyEq k (⟨k2, st.lastSeq + 1, 0, []⟩ : MemEntry) = false := by
      cases hq2 : ukeyEq k (⟨k2, st.lastSeq + 1, 0, []⟩ : MemEntry)
      · rfl
      · have := (bytesCompare_eq_iff _ _).mp ((ukeyEq_true_iff _ _).mp hq2)
        exact absurd this hk
    rw [topOf, topOf, find?_skipInsert_of_false _ _ _ hq]

/-- Running the write path from any valid state keeps the invariant and
makes `Get` answer from the last operation on the key, falling back to
the initial state's answer when no operation touched it. -/
theorem foldl_get_spec (k : Bytes) :
    ∀ (ops : List WriteOp) (st : DBState), RYWInv st →
      RYWInv (ops.foldl applyOp st) ∧
      dbGet k (ops.foldl applyOp st) =
        (match lastOpOn k ops with
         | some (.put _ v) => DBGetResult.value v
         | some (.del _) => DBGetResult.notFound
         | none => dbGet k st) := by
  intro ops
  induction ops with
  | nil =>
    intro st hInv
    exact ⟨hInv, by simp [lastOpOn]⟩
  | cons op rest ih =>
    intro st hInv
    simp only [List.foldl_cons]
    obtain ⟨ih1, ih2⟩ := ih (applyOp st op) (inv_applyOp st hInv op)
    refine ⟨ih1, ?_⟩
    rw [ih2]
    have hrev : (op :: rest).reverse = rest.reverse ++ [op] := by simp
    cases hlast : lastOpOn k rest with
    | some o =>
      have hsome : lastOpOn k (op :: rest) = some o := by
        simp only [lastOpOn, hrev, List.find?_append]
        rw [show rest.reverse.find? (fun o => decide (opKey o = k)) = some o from hlast]
        rfl
      rw [hsome]
      cases o <;> rfl
    | none =>
      have hnone : rest.reverse.find? (fun o => decide (opKey o = k)) = none := hlast
      by_cases hkey : opKey op = k
      · have hsome : lastOpOn k (op :: rest) = some op := by
          simp only [lastOpOn, hrev, List.find?_append, hnone]
          simp [List.find?, hkey]
        rw [hsome]
        show dbGet k (applyOp st op) = _
        subst hkey
        rw [dbGet_applyOp_same st hInv op]
        cases op <;> rfl
      · have hnone2 : lastOpOn k (op :: rest) = none := by
          simp only [lastOpOn, hrev, List.find?_append, hnone]
          simp [List.find?, hkey]
        rw [hnone2]
        show dbGet k (applyOp st op) = dbGet k st
        exact dbGet_applyOp_other st hInv op k hkey

/-- C1: after any sequence of `Put`/`Delete` operations by the single
writer, `Get` with no snapshot returns the value of the last `Put` on
the key, and NotFound when the last operation on the key was a
`Delete`. -/
theorem read_your_writes (ops : List WriteOp) (k v : Bytes) :
    (lastOpOn k ops = some (.put k v) → dbGet k (applyOps ops) = .value v) ∧
    (lastOpOn k ops = some (.del k) → dbGet k (applyOps ops) = .notFound) := by
  have hinit : RYWInv initDB := by
    refine ⟨List.Pairwise.nil, ?_⟩
    intro e he
    simp [initDB] at he
  obtain ⟨_, hget⟩ := foldl_get_spec k ops initDB hinit
  constructor
  · intro h
    simp only [applyOps]
    rw [hget, h]
  · intro h
    simp only [applyOps]
    rw [hget, h]

/-- Concrete run of the C1 theorem: put, delete and re-put key `[1]`,
plus a write to another key; `Get [1]` returns the value of the last
put. -/
theorem read_your_writes_witness :
    lastOpOn [1] [WriteOp.put [1] [10], .del [1], .put [1] [20], .put [2] [30]]
      = some (.put [1] [20]) ∧
    dbGet [1] (applyOps [WriteOp.put [1] [10], .del [1], .put [1] [20], .put [2] [30]])
      = .value [20] :=
  ⟨rfl,
   (read_your_writes [WriteOp.put [1] [10], .del [1], .put [1] [20], .put [2] [30]]
      [1] [20]).1 rfl⟩

end LevelDB
